import Mathlib

/-!
# Verification of the bucketed hash table (src/hash_table.rs)

Shallow embedding of the hash table from the repository source.  The Rust
code is generic over a key type `K : Hash + Eq` and an arbitrary value type
`V`; the hashing algorithm (`DefaultHasher`) is a fixed deterministic
function from keys to machine integers.  We model it as an explicit
parameter `hash : K → Nat`; every theorem quantified over `hash` covers in
particular the hash function the source uses.

The backing store `Buckets<K, V>` is a `Vec<Vec<(K, V)>>`.  The source
maintains the contract that the length and the capacity of the outer
vector coincide (comments in the source: "size and capacity of buckets
container are equal", "In current implementation array_size == len == cap"):
`Buckets::new` produces the empty vector (length = capacity = 0) and
`Buckets::resize` fills the new vector with `resize_with(cap, ..)` right
after `with_capacity(cap)`; no other operation pushes to or pops from the
outer vector.  We therefore model the store as a `List (List (K × V))`
whose length plays the role of both `len` and `capacity` of the outer
vector.

Rust panics (index out of range, division by zero in `hash % len`, and the
`expect("existing bucket can't be empty")` in `update_old_values`) are
modelled by `Option`: a result of `none` means the operation panics, and
`some` carries the value the Rust function returns.
-/

set_option linter.unusedSectionVars false

namespace HashTableRs

/-- The bucket store: outer list = the `Vec` of slots, inner lists = the
per-slot `Vec<(K, V)>` collision chains. -/
abbrev Bkts (K V : Type) : Type := List (List (K × V))

/-- `Vec::swap_remove(pos)`: remove the element at `pos` by overwriting it
with the last element and popping the last slot.  (On the call sites below
`pos` is always in range, so the Rust panic branch is unreachable.) -/
def swapRemove {α : Type} (l : List α) (pos : Nat) : List α :=
  match l.getLast? with
  | none => l
  | some x => (l.set pos x).dropLast

/-- `Iterator::position(pred)`: index of the first element satisfying the
predicate. -/
def position {α : Type} (p : α → Bool) : List α → Option Nat
  | [] => none
  | a :: l => if p a then some 0 else (position p l).map (· + 1)

variable {K V : Type} [DecidableEq K]

namespace Buckets

/-- `Buckets::new`: the empty outer vector. -/
def new : Bkts K V := []

/-- `Buckets::cap`: `self.0.capacity()`, which the source keeps equal to
`self.0.len()` (see the header comment). -/
def cap (b : Bkts K V) : Nat := b.length

/-- `Buckets::get_index`: `hash(key) % self.0.len()`.  The Rust `%` panics
when `self.0.len() == 0`, hence the `none` branch. -/
def get_index (hash : K → Nat) (b : Bkts K V) (k : K) : Option Nat :=
  if b.length = 0 then none else some (hash k % b.length)

/-- `Buckets::get_pos_in_bucket`: `self.0.get(bucket).map(|b| b.iter().position(..)).flatten()`. -/
def get_pos_in_bucket (b : Bkts K V) (i : Nat) (k : K) : Option Nat :=
  (b[i]?).bind fun bucket => position (fun p => decide (p.1 = k)) bucket

/-- `Buckets::get`: index, then linear scan of the slot with `find`.
Outer `none` = the index computation panicked (zero capacity). -/
def get (hash : K → Nat) (b : Bkts K V) (k : K) : Option (Option V) :=
  (get_index hash b k).map fun i =>
    ((b[i]?).bind fun bucket => bucket.find? fun p => decide (p.1 = k)).map fun e => e.2

/-- `Buckets::insert`: on a hit, `mem::replace` the entry in place and
return the previous value; on a miss, push the new entry onto the slot.
The inner `b[i]?`/`bucket[pos]?` reads model the Rust index expressions
`self.0[i]` and `self.0[i][pos]`, which panic out of range. -/
def insert (hash : K → Nat) (b : Bkts K V) (k : K) (v : V) :
    Option (Option V × Bkts K V) :=
  (get_index hash b k).bind fun i =>
    match get_pos_in_bucket b i k with
    | some pos =>
      (b[i]?).bind fun bucket =>
        (bucket[pos]?).map fun old => (some old.2, b.set i (bucket.set pos (k, v)))
    | none =>
      (b[i]?).map fun bucket => (none, b.set i (bucket ++ [(k, v)]))

/-- `Buckets::remove`: on a hit, `swap_remove` the entry from its slot and
return its value; otherwise return `None` and leave the store unchanged. -/
def remove (hash : K → Nat) (b : Bkts K V) (k : K) :
    Option (Option V × Bkts K V) :=
  (get_index hash b k).bind fun i =>
    match get_pos_in_bucket b i k with
    | some pos =>
      (b[i]?).bind fun bucket =>
        (bucket[pos]?).map fun e => (some e.2, b.set i (swapRemove bucket pos))
    | none => some ((none : Option V), b)

/-- `Buckets::len`: the number of non-empty slots ("real length"). -/
def len (b : Bkts K V) : Nat := b.countP fun l => !l.isEmpty

/-- `Buckets::count_items`: total number of entries, summed over slots. -/
def count_items (b : Bkts K V) : Nat := b.foldl (fun acc l => acc + l.length) 0

/-- `Buckets::update_old_values`: move every old slot, as a unit, to the
index computed from its first entry.  `bucket.get(0).expect("existing
bucket can't be empty")` panics on an empty old slot (the `none` branch).
The write `self.0[new_index] = bucket` is in range because `get_index`
returned `some` (a remainder by the positive length). -/
def update_old_values (hash : K → Nat) (b : Bkts K V) :
    List (List (K × V)) → Option (Bkts K V)
  | [] => some b
  | bucket :: rest =>
    match bucket.head? with
    | none => none
    | some e =>
      match get_index hash b e.1 with
      | none => none
      | some newIndex => update_old_values hash (b.set newIndex bucket) rest

/-- `Buckets::resize`: allocate `cap` empty slots, then relocate the old
slots with `update_old_values`. -/
def resize (hash : K → Nat) (b : Bkts K V) (c : Nat) : Option (Bkts K V) :=
  update_old_values hash (List.replicate c ([] : List (K × V))) b

end Buckets

/-- `INITIAL_LEN`: capacity installed by the first resize. -/
def INITIAL_LEN : Nat := 2

namespace HashTable

/-- `HashTable::new`: wraps `Buckets::new`; the table state is exactly the
bucket store. -/
def new : Bkts K V := Buckets.new

/-- `HashTable::needs_resize`: resize when no slot is occupied, or when
`real_len / cap > 7`.  In Rust the division panics when `cap == 0`, but on
the division path `real_len ≠ 0` forces `cap > 0` (there is a non-empty
slot, and `real_len ≤ self.0.len() = cap`), so `Nat` division is faithful. -/
def needs_resize (b : Bkts K V) : Bool :=
  let real_len := Buckets.len b
  if real_len = 0 then true
  else decide (7 < real_len / Buckets.cap b)

/-- The new capacity chosen by `HashTable::resize`:
`previous == 0 ? INITIAL_LEN : previous * 2`. -/
def new_cap (b : Bkts K V) : Nat :=
  match Buckets.cap b with
  | 0 => INITIAL_LEN
  | n => n * 2

/-- `HashTable::resize`: double (or initialise) the capacity and rebuild. -/
def resize (hash : K → Nat) (b : Bkts K V) : Option (Bkts K V) :=
  Buckets.resize hash b (new_cap b)

/-- `HashTable::insert`: resize first when `needs_resize`, then delegate. -/
def insert (hash : K → Nat) (b : Bkts K V) (k : K) (v : V) :
    Option (Option V × Bkts K V) :=
  if needs_resize b then (resize hash b).bind fun b2 => Buckets.insert hash b2 k v
  else Buckets.insert hash b k v

/-- `HashTable::get`: delegates to `Buckets::get`; takes `&self`, so it
cannot mutate the table. -/
def get (hash : K → Nat) (b : Bkts K V) (k : K) : Option (Option V) :=
  Buckets.get hash b k

/-- `HashTable::contains_key`: `self.get(key).is_some()`. -/
def contains_key (hash : K → Nat) (b : Bkts K V) (k : K) : Option Bool :=
  (get hash b k).map Option.isSome

/-- `HashTable::remove`: delegates to `Buckets::remove`. -/
def remove (hash : K → Nat) (b : Bkts K V) (k : K) :
    Option (Option V × Bkts K V) :=
  Buckets.remove hash b k

/-- `HashTable::len`: delegates to `Buckets::count_items`. -/
def len (b : Bkts K V) : Nat := Buckets.count_items b

end HashTable

/-! ## Sequences of public operations

The mutating public operations.  `get`, `contains_key` and `len` take the
table by shared reference and return no new state, so reachability of
table states is determined by `insert` and `remove` alone. -/

/-- A mutating public call. -/
inductive Op (K V : Type) : Type
  | ins (k : K) (v : V)
  | rem (k : K)

/-- One public call on a table state; `none` = the call panics. -/
def step (hash : K → Nat) (b : Bkts K V) : Op K V → Option (Bkts K V)
  | Op.ins k v => (HashTable.insert hash b k v).map fun r => r.2
  | Op.rem k => (HashTable.remove hash b k).map fun r => r.2

/-- Run a sequence of public calls from a given state; `none` as soon as
one of them panics. -/
def runFrom (hash : K → Nat) (b : Bkts K V) : List (Op K V) → Option (Bkts K V)
  | [] => some b
  | op :: rest => (step hash b op).bind fun b2 => runFrom hash b2 rest

/-- Run a sequence of public calls from the fresh table `HashTable::new()`. -/
def run (hash : K → Nat) (ops : List (Op K V)) : Option (Bkts K V) :=
  runFrom hash HashTable.new ops

/-! ## Reference model

A hash table abstracts to a finite map; the model records, per key, the
value the public API should currently associate with it. -/

/-- Point update of the abstract map. -/
def mset (M : K → Option V) (k : K) (v : V) : K → Option V :=
  fun q => if q = k then some v else M q

/-- Point deletion from the abstract map. -/
def mdel (M : K → Option V) (k : K) : K → Option V :=
  fun q => if q = k then none else M q

/-- Effect of one public call on the abstract map. -/
def modelStep (M : K → Option V) : Op K V → (K → Option V)
  | Op.ins k v => mset M k v
  | Op.rem k => mdel M k

/-- Effect of a call sequence on the abstract map. -/
def modelRun (M : K → Option V) : List (Op K V) → (K → Option V)
  | [] => M
  | op :: rest => modelRun (modelStep M op) rest

/-- The abstract map described by a call sequence, starting empty. -/
def model (ops : List (Op K V)) : K → Option V :=
  modelRun (fun _ => none) ops

/-! ## Invariants -/

/-- Every entry sits in the slot its hash selects under the current
capacity (spec Invariant B, placement half). -/
def Placed (hash : K → Nat) (s : Bkts K V) : Prop :=
  ∀ (i : Nat) (hi : i < s.length) (p : K × V),
    p ∈ s.get ⟨i, hi⟩ → i = hash p.1 % s.length

/-- Each key occurs in at most one entry of the whole table. -/
def UniqKeys (s : Bkts K V) : Prop :=
  ∀ k : K, (s.flatten.countP fun p => decide (p.1 = k)) ≤ 1

/-- The table stores exactly the entries of the abstract map `M`. -/
def Abs (s : Bkts K V) (M : K → Option V) : Prop :=
  ∀ p : K × V, p ∈ s.flatten ↔ M p.1 = some p.2

/-- Full refinement invariant tying a table state to an abstract map. -/
def J (hash : K → Nat) (s : Bkts K V) (M : K → Option V) : Prop :=
  Placed hash s ∧ UniqKeys s ∧ Abs s M

/-! ## List-level helper lemmas -/

theorem position_eq_none {α : Type} {p : α → Bool} :
    ∀ {l : List α}, position p l = none ↔ ∀ a ∈ l, p a = false
  | [] => by simp [position]
  | a :: t => by
    by_cases hpa : p a
    · simp [position, hpa]
    · simp only [position, if_neg hpa, Option.map_eq_none']
      rw [position_eq_none]
      simp [Bool.eq_false_iff.2 hpa]

theorem position_eq_some {α : Type} {p : α → Bool} :
    ∀ {l : List α} {n : Nat}, position p l = some n →
      ∃ h : n < l.length, p (l.get ⟨n, h⟩) = true
  | [], n => by simp [position]
  | a :: t, n => by
    by_cases hpa : p a
    · simp only [position, if_pos hpa, Option.some_inj]
      rintro rfl
      exact ⟨by simp, hpa⟩
    · simp only [position, if_neg hpa, Option.map_eq_some']
      rintro ⟨m, hm, rfl⟩
      obtain ⟨h, hp⟩ := position_eq_some hm
      exact ⟨by simpa using h, hp⟩

theorem perm_getLast?_cons {α : Type} :
    ∀ {l : List α} {x : α}, l.getLast? = some x → l.Perm (x :: l.dropLast)
  | [], x => by simp
  | [a], x => by
    rintro ⟨rfl⟩
    exact List.Perm.refl _
  | a :: b :: t, x => by
    intro h
    rw [List.getLast?_cons_cons] at h
    have ih := perm_getLast?_cons h
    have hdl : (a :: b :: t).dropLast = a :: (b :: t).dropLast := rfl
    rw [hdl]
    exact (ih.cons a).trans (List.Perm.swap x a _)

theorem perm_set_cons_swapRemove {α : Type} :
    ∀ (l : List α) (pos : Nat), pos < l.length →
      ∀ a : α, (l.set pos a).Perm (a :: swapRemove l pos)
  | [], pos, h => by simp at h
  | [c], 0, _ => by
    intro a
    show [a].Perm (a :: swapRemove [c] 0)
    have : swapRemove [c] 0 = [] := rfl
    rw [this]
  | c :: d :: t, 0, _ => by
    intro a
    cases hg : (d :: t).getLast? with
    | none => simp at hg
    | some x =>
      have hsw : swapRemove (c :: d :: t) 0 = x :: (d :: t).dropLast := by
        unfold swapRemove
        rw [List.getLast?_cons_cons, hg]
        rfl
      rw [hsw]
      show (a :: d :: t).Perm (a :: x :: (d :: t).dropLast)
      exact (perm_getLast?_cons hg).cons a
  | c :: d :: t, pos + 1, h => by
    intro a
    have h' : pos < (d :: t).length := by simpa using h
    cases hg : (d :: t).getLast? with
    | none => simp at hg
    | some x =>
      have hsw : swapRemove (c :: d :: t) (pos + 1) = c :: swapRemove (d :: t) pos := by
        unfold swapRemove
        rw [List.getLast?_cons_cons, hg]
        show ((c :: (d :: t).set pos x).dropLast) = c :: ((d :: t).set pos x).dropLast
        cases pos <;> rfl
      rw [hsw]
      show (c :: (d :: t).set pos a).Perm (a :: c :: swapRemove (d :: t) pos)
      exact ((perm_set_cons_swapRemove (d :: t) pos h' a).cons c).trans
        (List.Perm.swap a c _)

theorem perm_get_cons_swapRemove {α : Type} (l : List α) (pos : Nat)
    (h : pos < l.length) : l.Perm (l.get ⟨pos, h⟩ :: swapRemove l pos) := by
  have hset : l.set pos (l.get ⟨pos, h⟩) = l := by
    apply List.ext_getElem
    · simp
    · intro j h1 h2
      by_cases hj : pos = j
      · subst hj
        simp
      · rw [List.getElem_set_ne hj]
  conv_lhs => rw [← hset]
  exact perm_set_cons_swapRemove l pos h _

/-- Splitting the flattened table at one slot: the rest `R` is the
entries of all the other slots, and rewriting the slot rewrites only the
first summand. -/
theorem flatten_decomp {α : Type} :
    ∀ (L : List (List α)) (i : Nat) (hi : i < L.length),
      ∃ R : List α,
        L.flatten.Perm (L.get ⟨i, hi⟩ ++ R) ∧
        (∀ x : List α, ((L.set i x).flatten).Perm (x ++ R)) ∧
        (∀ a ∈ R, ∃ j, ∃ hj : j < L.length, j ≠ i ∧ a ∈ L.get ⟨j, hj⟩)
  | [], i, hi => absurd hi (by simp)
  | b :: t, 0, _ => by
    refine ⟨t.flatten, by simp, fun x => by simp, fun a ha => ?_⟩
    rw [List.mem_flatten] at ha
    obtain ⟨l, hl, hal⟩ := ha
    rw [List.mem_iff_get] at hl
    obtain ⟨⟨j, hj⟩, rfl⟩ := hl
    exact ⟨j + 1, by simpa using Nat.succ_lt_succ hj, by simp, hal⟩
  | b :: t, i + 1, hi => by
    have hi' : i < t.length := by simpa using hi
    obtain ⟨R, h1, h2, h3⟩ := flatten_decomp t i hi'
    refine ⟨b ++ R, ?_, fun x => ?_, fun a ha => ?_⟩
    · show (b ++ t.flatten).Perm ((b :: t).get ⟨i + 1, hi⟩ ++ (b ++ R))
      have hget : (b :: t).get ⟨i + 1, hi⟩ = t.get ⟨i, hi'⟩ := rfl
      rw [hget]
      refine (h1.append_left b).trans ?_
      have hc := (@List.perm_append_comm _ b (t.get ⟨i, hi'⟩)).append_right R
      simpa [List.append_assoc] using hc
    · show (b ++ (t.set i x).flatten).Perm (x ++ (b ++ R))
      refine ((h2 x).append_left b).trans ?_
      have hc := (@List.perm_append_comm _ b x).append_right R
      simpa [List.append_assoc] using hc
    · rcases List.mem_append.1 ha with hab | haR
      · exact ⟨0, by simp, by simp, hab⟩
      · obtain ⟨j, hj, hji, hmem⟩ := h3 a haR
        exact ⟨j + 1, by simpa using Nat.succ_lt_succ hj, by simpa using hji, hmem⟩

theorem two_le_countP {α : Type} {p : α → Bool} :
    ∀ {l : List α} {a b : α}, a ∈ l → b ∈ l → a ≠ b →
      p a = true → p b = true → 2 ≤ l.countP p := by
  intro l
  induction l with
  | nil => simp
  | cons c t ih =>
    intro a b ha hb hab hpa hpb
    rcases List.mem_cons.1 ha with rfl | ha'
    · rcases List.mem_cons.1 hb with rfl | hb'
      · exact absurd rfl hab
      · have h1 : 0 < t.countP p := List.countP_pos_iff.2 ⟨b, hb', hpb⟩
        rw [List.countP_cons, if_pos hpa]
        omega
    · rcases List.mem_cons.1 hb with rfl | hb'
      · have h1 : 0 < t.countP p := List.countP_pos_iff.2 ⟨a, ha', hpa⟩
        rw [List.countP_cons, if_pos hpb]
        omega
      · have h2 := ih ha' hb' hab hpa hpb
        rw [List.countP_cons]
        omega

/-- Under `UniqKeys`, a key determines its entry. -/
theorem UniqKeys.key_inj {s : Bkts K V} (h : UniqKeys s) {p q : K × V}
    (hp : p ∈ s.flatten) (hq : q ∈ s.flatten) (hk : p.1 = q.1) : p = q := by
  by_contra hne
  have h2 : 2 ≤ s.flatten.countP fun r => decide (r.1 = q.1) :=
    two_le_countP hp hq hne (by simp [hk]) (by simp)
  have h1 := h q.1
  omega

/-! ## Occupancy bookkeeping -/

theorem len_le_cap (s : Bkts K V) : Buckets.len s ≤ Buckets.cap s :=
  List.countP_le_length _

theorem len_ne_zero_of_mem_flatten {s : Bkts K V} {p : K × V}
    (hp : p ∈ s.flatten) : Buckets.len s ≠ 0 := by
  rw [List.mem_flatten] at hp
  obtain ⟨l, hl, hpl⟩ := hp
  have hne : (!l.isEmpty) = true := by
    cases l
    · simp at hpl
    · rfl
  have hpos : 0 < Buckets.len s := List.countP_pos_iff.2 ⟨l, hl, hne⟩
  omega

theorem occupancy_le_one (s : Bkts K V) :
    Buckets.len s / Buckets.cap s ≤ 1 := by
  by_cases hc : Buckets.cap s = 0
  · simp [hc]
  · have h1 : Buckets.len s / Buckets.cap s ≤ Buckets.cap s / Buckets.cap s :=
      Nat.div_le_div_right (len_le_cap s)
    rw [Nat.div_self (Nat.pos_of_ne_zero hc)] at h1
    exact h1

theorem needs_resize_iff (s : Bkts K V) :
    HashTable.needs_resize s = true ↔
      (Buckets.len s = 0 ∨ 7 < Buckets.len s / Buckets.cap s) := by
  unfold HashTable.needs_resize
  by_cases h : Buckets.len s = 0 <;> simp [h]

theorem needs_resize_iff_len_zero (s : Bkts K V) :
    HashTable.needs_resize s = true ↔ Buckets.len s = 0 := by
  rw [needs_resize_iff]
  have h1 := occupancy_le_one s
  constructor
  · rintro (h | h)
    · exact h
    · omega
  · exact Or.inl

theorem needs_resize_eq_false {s : Bkts K V} (h : Buckets.len s ≠ 0) :
    HashTable.needs_resize s = false := by
  cases hnr : HashTable.needs_resize s
  · rfl
  · exact absurd ((needs_resize_iff_len_zero s).1 hnr) h

theorem bucket_nil_of_len_zero {s : Bkts K V} (h : Buckets.len s = 0) :
    ∀ l ∈ s, l = [] := by
  intro l hl
  have h0 : s.countP (fun l => !l.isEmpty) = 0 := h
  have h2 := List.countP_eq_zero.1 h0 l hl
  cases l
  · rfl
  · simp at h2

/-! ## The resize path -/

theorem resize_nil (hash : K → Nat) :
    HashTable.resize hash ([] : Bkts K V) = some (List.replicate 2 []) := rfl

/-- The relocation loop panics as soon as the old store is non-empty but
all its slots are empty: its very first `expect` fails. -/
theorem resize_eq_none {hash : K → Nat} {s : Bkts K V}
    (hcap : Buckets.cap s ≠ 0) (hlen : Buckets.len s = 0) :
    HashTable.resize hash s = none := by
  cases s with
  | nil => exact absurd rfl hcap
  | cons b0 rest =>
    have hb0 : b0 = [] := bucket_nil_of_len_zero hlen b0 (by simp)
    subst hb0
    rfl

theorem get_index_eq {hash : K → Nat} {b : Bkts K V} (h : b.length ≠ 0) (k : K) :
    Buckets.get_index hash b k = some (hash k % b.length) := by
  unfold Buckets.get_index
  rw [if_neg h]

theorem index_lt {b : Bkts K V} (h : b.length ≠ 0) (hash : K → Nat) (k : K) :
    hash k % b.length < b.length :=
  Nat.mod_lt _ (Nat.pos_of_ne_zero h)

/-! ## Behaviour of the bucket operations under the invariant -/

/-- `Buckets::insert` on a non-empty store satisfying the invariant:
returns the abstract previous value of the key and re-establishes the
invariant for the point-updated map, at unchanged capacity. -/
theorem insert_spec {hash : K → Nat} {s : Bkts K V} {M : K → Option V}
    (hJ : J hash s M) (hlen : s.length ≠ 0) (k : K) (v : V) :
    ∃ s2 : Bkts K V, Buckets.insert hash s k v = some (M k, s2) ∧
      J hash s2 (mset M k v) ∧ s2.length = s.length := by
  obtain ⟨hpl, hun, habs⟩ := hJ
  have hi : hash k % s.length < s.length := index_lt hlen hash k
  set i := hash k % s.length with hidef
  have hIdx : Buckets.get_index hash s k = some i := get_index_eq hlen k
  obtain ⟨R, hR1, hR2, hR3⟩ := flatten_decomp s i hi
  set bucket := s.get ⟨i, hi⟩ with hbdef
  have hbq : s[i]? = some bucket := by
    rw [List.getElem?_eq_some]
    exact ⟨hi, rfl⟩
  have hRk : ∀ p ∈ R, p.1 ≠ k := by
    intro p hp hpk
    obtain ⟨j, hj, hji, hmem⟩ := hR3 p hp
    apply hji
    rw [hpl j hj p hmem, hpk]
  cases hpos : Buckets.get_pos_in_bucket s i k with
  | none =>
    have hnone : position (fun p => decide (p.1 = k)) bucket = none := by
      unfold Buckets.get_pos_in_bucket at hpos
      rw [hbq] at hpos
      simpa using hpos
    have hbk : ∀ p ∈ bucket, p.1 ≠ k := by
      intro p hp
      have h2 := position_eq_none.1 hnone p hp
      simpa using h2
    have hMk : M k = none := by
      cases hMk : M k with
      | none => rfl
      | some w =>
        have hmem : ((k, w) : K × V) ∈ s.flatten := (habs (k, w)).2 hMk
        rcases List.mem_append.1 (hR1.mem_iff.1 hmem) with h | h
        · exact absurd rfl (hbk _ h)
        · exact absurd rfl (hRk _ h)
    refine ⟨s.set i (bucket ++ [(k, v)]), ?_, ⟨?_, ?_, ?_⟩, by simp⟩
    · simp [Buckets.insert, hIdx, hpos, hbq, hMk]
    · -- Placed
      intro j hj p hp
      by_cases hij : i = j
      · subst hij
        have hgb : (s.set i (bucket ++ [(k, v)])).get ⟨i, hj⟩ =
            bucket ++ [(k, v)] := by
          simp [List.get_eq_getElem]
        rw [hgb] at hp
        rw [List.length_set]
        rcases List.mem_append.1 hp with h | h
        · exact hpl i hi p h
        · have hpkv : p = (k, v) := by simpa using h
          rw [hpkv]
      · have hj2 : j < s.length := by simpa using hj
        have hgb : (s.set i (bucket ++ [(k, v)])).get ⟨j, hj⟩ = s.get ⟨j, hj2⟩ := by
          rw [List.get_eq_getElem, List.get_eq_getElem]
          exact List.getElem_set_ne hij hj
        rw [hgb] at hp
        rw [List.length_set]
        exact hpl j hj2 p hp
    · -- UniqKeys
      intro q
      have hcnt := (hR2 (bucket ++ [(k, v)])).countP_eq (fun p => decide (p.1 = q))
      have hsc := hR1.countP_eq (fun p => decide (p.1 = q))
      have hor := hun q
      rw [hsc, List.countP_append] at hor
      rw [hcnt, List.countP_append, List.countP_append]
      by_cases hq : q = k
      · subst hq
        have hb0 : bucket.countP (fun p => decide (p.1 = q)) = 0 :=
          List.countP_eq_zero.2 (fun a ha => by simpa using hbk a ha)
        have hR0 : R.countP (fun p => decide (p.1 = q)) = 0 :=
          List.countP_eq_zero.2 (fun a ha => by simpa using hRk a ha)
        simp [hb0, hR0, List.countP_cons]
      · have h1 : ([(k, v)] : List (K × V)).countP (fun p => decide (p.1 = q)) = 0 := by
          simp [List.countP_cons]
          exact fun h => absurd h.symm hq
        omega
    · -- Abs
      intro p
      rw [(hR2 (bucket ++ [(k, v)])).mem_iff, List.mem_append, List.mem_append]
      constructor
      · rintro ((hpb | hpkv) | hpR)
        · have hin : p ∈ s.flatten := hR1.mem_iff.2 (List.mem_append.2 (Or.inl hpb))
          have hMp := (habs p).1 hin
          simp [mset, hbk p hpb, hMp]
        · have hpe : p = (k, v) := by simpa using hpkv
          subst hpe
          simp [mset]
        · have hin : p ∈ s.flatten := hR1.mem_iff.2 (List.mem_append.2 (Or.inr hpR))
          have hMp := (habs p).1 hin
          simp [mset, hRk p hpR, hMp]
      · intro hM
        by_cases hpk : p.1 = k
        · rw [mset, if_pos hpk] at hM
          have hpv : p.2 = v := by
            injection hM with h2
            exact h2.symm
          have hpe : p = (k, v) := Prod.ext hpk hpv
          rw [hpe]
          exact Or.inl (Or.inr (by simp))
        · rw [mset, if_neg hpk] at hM
          have hmem : p ∈ s.flatten := (habs p).2 hM
          rcases List.mem_append.1 (hR1.mem_iff.1 hmem) with h | h
          · exact Or.inl (Or.inl h)
          · exact Or.inr h
  | some pos =>
    have hposb : position (fun p => decide (p.1 = k)) bucket = some pos := by
      unfold Buckets.get_pos_in_bucket at hpos
      rw [hbq] at hpos
      simpa using hpos
    obtain ⟨hplen, hppred⟩ := position_eq_some hposb
    set e := bucket.get ⟨pos, hplen⟩ with hedef
    have hek : e.1 = k := by simpa using hppred
    have hbpq : bucket[pos]? = some e := by
      rw [List.getElem?_eq_some]
      exact ⟨hplen, rfl⟩
    have heb : e ∈ bucket := List.get_mem bucket pos hplen
    have hes : e ∈ s.flatten := hR1.mem_iff.2 (List.mem_append.2 (Or.inl heb))
    have hMk : M k = some e.2 := by
      rw [← hek]
      exact (habs e).1 hes
    have hb2 : (bucket.set pos (k, v)).Perm ((k, v) :: swapRemove bucket pos) :=
      perm_set_cons_swapRemove bucket pos hplen (k, v)
    have hb1 : bucket.Perm (e :: swapRemove bucket pos) :=
      perm_get_cons_swapRemove bucket pos hplen
    have hun2 : UniqKeys (s.set i (bucket.set pos (k, v))) := by
      intro q
      have hcnt := (hR2 (bucket.set pos (k, v))).countP_eq (fun p => decide (p.1 = q))
      have hsc := hR1.countP_eq (fun p => decide (p.1 = q))
      have hor := hun q
      rw [hsc, List.countP_append] at hor
      rw [hcnt, List.countP_append]
      have hcb2 := hb2.countP_eq (fun p => decide (p.1 = q))
      have hcb1 := hb1.countP_eq (fun p => decide (p.1 = q))
      rw [List.countP_cons] at hcb2 hcb1
      rw [hek] at hcb1
      rw [show ((k, v) : K × V).1 = k from rfl] at hcb2
      omega
    refine ⟨s.set i (bucket.set pos (k, v)), ?_, ⟨?_, hun2, ?_⟩, by simp⟩
    · simp [Buckets.insert, hIdx, hpos, hbq, hbpq, hMk]
    · -- Placed
      intro j hj p hp
      by_cases hij : i = j
      · subst hij
        have hgb : (s.set i (bucket.set pos (k, v))).get ⟨i, hj⟩ =
            bucket.set pos (k, v) := by
          simp [List.get_eq_getElem]
        rw [hgb] at hp
        rw [List.length_set]
        rcases List.mem_cons.1 (hb2.mem_iff.1 hp) with hpe | hsw
        · rw [hpe]
        · have hpb : p ∈ bucket := hb1.mem_iff.2 (List.mem_cons_of_mem _ hsw)
          exact hpl i hi p hpb
      · have hj2 : j < s.length := by simpa using hj
        have hgb : (s.set i (bucket.set pos (k, v))).get ⟨j, hj⟩ = s.get ⟨j, hj2⟩ := by
          rw [List.get_eq_getElem, List.get_eq_getElem]
          exact List.getElem_set_ne hij hj
        rw [hgb] at hp
        rw [List.length_set]
        exact hpl j hj2 p hp
    · -- Abs
      have hkvmem : ((k, v) : K × V) ∈ (s.set i (bucket.set pos (k, v))).flatten :=
        (hR2 (bucket.set pos (k, v))).mem_iff.2
          (List.mem_append.2 (Or.inl (hb2.mem_iff.2 (List.mem_cons_self _ _))))
      intro p
      constructor
      · intro hpmem
        by_cases hpk : p.1 = k
        · have hpe : p = (k, v) := hun2.key_inj hpmem hkvmem hpk
          rw [hpe]
          simp [mset]
        · rw [mset, if_neg hpk]
          rcases List.mem_append.1 ((hR2 (bucket.set pos (k, v))).mem_iff.1 hpmem)
            with hb | hR
          · rcases List.mem_cons.1 (hb2.mem_iff.1 hb) with hpe | hsw
            · rw [hpe] at hpk
              exact absurd rfl hpk
            · have hpb : p ∈ bucket := hb1.mem_iff.2 (List.mem_cons_of_mem _ hsw)
              have hin : p ∈ s.flatten := hR1.mem_iff.2 (List.mem_append.2 (Or.inl hpb))
              exact (habs p).1 hin
          · have hin : p ∈ s.flatten := hR1.mem_iff.2 (List.mem_append.2 (Or.inr hR))
            exact (habs p).1 hin
      · intro hM
        by_cases hpk : p.1 = k
        · rw [mset, if_pos hpk] at hM
          have hpv : p.2 = v := by
            injection hM with h2
            exact h2.symm
          have hpe : p = (k, v) := Prod.ext hpk hpv
          rw [hpe]
          exact hkvmem
        · rw [mset, if_neg hpk] at hM
          have hmem : p ∈ s.flatten := (habs p).2 hM
          apply (hR2 (bucket.set pos (k, v))).mem_iff.2
          rcases List.mem_append.1 (hR1.mem_iff.1 hmem) with hb | hR
          · rcases List.mem_cons.1 (hb1.mem_iff.1 hb) with hpe | hsw
            · rw [hpe] at hpk
              exact absurd hek hpk
            · exact List.mem_append.2
                (Or.inl (hb2.mem_iff.2 (List.mem_cons_of_mem _ hsw)))
          · exact List.mem_append.2 (Or.inr hR)

/-- `Buckets::remove` on a non-empty store satisfying the invariant:
returns the abstract value of the key, re-establishes the invariant for
the point-deleted map at unchanged capacity, and leaves the store
untouched when the key is absent. -/
theorem remove_spec {hash : K → Nat} {s : Bkts K V} {M : K → Option V}
    (hJ : J hash s M) (hlen : s.length ≠ 0) (k : K) :
    ∃ s2 : Bkts K V, Buckets.remove hash s k = some (M k, s2) ∧
      J hash s2 (mdel M k) ∧ s2.length = s.length ∧ (M k = none → s2 = s) := by
  obtain ⟨hpl, hun, habs⟩ := hJ
  have hi : hash k % s.length < s.length := index_lt hlen hash k
  set i := hash k % s.length with hidef
  have hIdx : Buckets.get_index hash s k = some i := get_index_eq hlen k
  obtain ⟨R, hR1, hR2, hR3⟩ := flatten_decomp s i hi
  set bucket := s.get ⟨i, hi⟩ with hbdef
  have hbq : s[i]? = some bucket := by
    rw [List.getElem?_eq_some]
    exact ⟨hi, rfl⟩
  have hRk : ∀ p ∈ R, p.1 ≠ k := by
    intro p hp hpk
    obtain ⟨j, hj, hji, hmem⟩ := hR3 p hp
    apply hji
    rw [hpl j hj p hmem, hpk]
  cases hpos : Buckets.get_pos_in_bucket s i k with
  | none =>
    have hnone : position (fun p => decide (p.1 = k)) bucket = none := by
      unfold Buckets.get_pos_in_bucket at hpos
      rw [hbq] at hpos
      simpa using hpos
    have hbk : ∀ p ∈ bucket, p.1 ≠ k := by
      intro p hp
      have h2 := position_eq_none.1 hnone p hp
      simpa using h2
    have hMk : M k = none := by
      cases hMk : M k with
      | none => rfl
      | some w =>
        have hmem : ((k, w) : K × V) ∈ s.flatten := (habs (k, w)).2 hMk
        rcases List.mem_append.1 (hR1.mem_iff.1 hmem) with h | h
        · exact absurd rfl (hbk _ h)
        · exact absurd rfl (hRk _ h)
    refine ⟨s, ?_, ⟨hpl, hun, ?_⟩, rfl, fun _ => rfl⟩
    · simp [Buckets.remove, hIdx, hpos, hMk]
    · intro p
      by_cases hpk : p.1 = k
      · rw [mdel, if_pos hpk]
        constructor
        · intro hmem
          rcases List.mem_append.1 (hR1.mem_iff.1 hmem) with h | h
          · exact absurd hpk (hbk _ h)
          · exact absurd hpk (hRk _ h)
        · intro h
          cases h
      · rw [mdel, if_neg hpk]
        exact habs p
  | some pos =>
    have hposb : position (fun p => decide (p.1 = k)) bucket = some pos := by
      unfold Buckets.get_pos_in_bucket at hpos
      rw [hbq] at hpos
      simpa using hpos
    obtain ⟨hplen, hppred⟩ := position_eq_some hposb
    set e := bucket.get ⟨pos, hplen⟩ with hedef
    have hek : e.1 = k := by simpa using hppred
    have hbpq : bucket[pos]? = some e := by
      rw [List.getElem?_eq_some]
      exact ⟨hplen, rfl⟩
    have heb : e ∈ bucket := List.get_mem bucket pos hplen
    have hes : e ∈ s.flatten := hR1.mem_iff.2 (List.mem_append.2 (Or.inl heb))
    have hMk : M k = some e.2 := by
      rw [← hek]
      exact (habs e).1 hes
    have hb1 : bucket.Perm (e :: swapRemove bucket pos) :=
      perm_get_cons_swapRemove bucket pos hplen
    have hswsub : ∀ p ∈ swapRemove bucket pos, p ∈ bucket := fun p hp =>
      hb1.mem_iff.2 (List.mem_cons_of_mem _ hp)
    have hswk : ∀ p ∈ swapRemove bucket pos, p.1 ≠ k := by
      intro p hp hpk
      have hpb : p ∈ bucket := hswsub p hp
      have hpin : p ∈ s.flatten := hR1.mem_iff.2 (List.mem_append.2 (Or.inl hpb))
      have hpe : p = e := hun.key_inj hpin hes (by rw [hpk, hek])
      have hsw1 : 0 < (swapRemove bucket pos).countP (fun r => decide (r.1 = k)) :=
        List.countP_pos_iff.2 ⟨p, hp, by simp [hpk]⟩
      have hce := hb1.countP_eq (fun r => decide (r.1 = k))
      rw [List.countP_cons, hek] at hce
      have hsc := hR1.countP_eq (fun r => decide (r.1 = k))
      rw [List.countP_append] at hsc
      have hor := hun k
      rw [hsc] at hor
      simp only [decide_True, if_true] at hce
      omega
    refine ⟨s.set i (swapRemove bucket pos), ?_, ⟨?_, ?_, ?_⟩, by simp, ?_⟩
    · simp [Buckets.remove, hIdx, hpos, hbq, hbpq, hMk]
    · -- Placed
      intro j hj p hp
      by_cases hij : i = j
      · subst hij
        have hgb : (s.set i (swapRemove bucket pos)).get ⟨i, hj⟩ =
            swapRemove bucket pos := by
          simp [List.get_eq_getElem]
        rw [hgb] at hp
        rw [List.length_set]
        exact hpl i hi p (hswsub p hp)
      · have hj2 : j < s.length := by simpa using hj
        have hgb : (s.set i (swapRemove bucket pos)).get ⟨j, hj⟩ = s.get ⟨j, hj2⟩ := by
          rw [List.get_eq_getElem, List.get_eq_getElem]
          exact List.getElem_set_ne hij hj
        rw [hgb] at hp
        rw [List.length_set]
        exact hpl j hj2 p hp
    · -- UniqKeys
      intro q
      have hcnt := (hR2 (swapRemove bucket pos)).countP_eq (fun p => decide (p.1 = q))
      have hsc := hR1.countP_eq (fun p => decide (p.1 = q))
      have hor := hun q
      rw [hsc, List.countP_append] at hor
      rw [hcnt, List.countP_append]
      have hcb1 := hb1.countP_eq (fun p => decide (p.1 = q))
      rw [List.countP_cons] at hcb1
      omega
    · -- Abs
      intro p
      rw [(hR2 (swapRemove bucket pos)).mem_iff, List.mem_append]
      constructor
      · rintro (hsw | hpR)
        · have hpb : p ∈ bucket := hswsub p hsw
          have hin : p ∈ s.flatten := hR1.mem_iff.2 (List.mem_append.2 (Or.inl hpb))
          have hMp := (habs p).1 hin
          rw [mdel, if_neg (hswk p hsw)]
          exact hMp
        · have hin : p ∈ s.flatten := hR1.mem_iff.2 (List.mem_append.2 (Or.inr hpR))
          have hMp := (habs p).1 hin
          rw [mdel, if_neg (hRk p hpR)]
          exact hMp
      · intro hM
        by_cases hpk : p.1 = k
        · rw [mdel, if_pos hpk] at hM
          cases hM
        · rw [mdel, if_neg hpk] at hM
          have hmem : p ∈ s.flatten := (habs p).2 hM
          rcases List.mem_append.1 (hR1.mem_iff.1 hmem) with hb | hR
          · rcases List.mem_cons.1 (hb1.mem_iff.1 hb) with hpe | hsw
            · rw [hpe] at hpk
              exact absurd hek hpk
            · exact Or.inl hsw
          · exact Or.inr hR
    · intro hc
      rw [hc] at hMk
      cases hMk

/-- `Buckets::get` on a non-empty store satisfying the invariant does not
panic and returns exactly the abstract value of the key. -/
theorem get_spec {hash : K → Nat} {s : Bkts K V} {M : K → Option V}
    (hJ : J hash s M) (hlen : s.length ≠ 0) (k : K) :
    Buckets.get hash s k = some (M k) := by
  obtain ⟨hpl, hun, habs⟩ := hJ
  have hi : hash k % s.length < s.length := index_lt hlen hash k
  set i := hash k % s.length with hidef
  have hIdx : Buckets.get_index hash s k = some i := get_index_eq hlen k
  obtain ⟨R, hR1, hR2, hR3⟩ := flatten_decomp s i hi
  set bucket := s.get ⟨i, hi⟩ with hbdef
  have hbq : s[i]? = some bucket := by
    rw [List.getElem?_eq_some]
    exact ⟨hi, rfl⟩
  have hRk : ∀ p ∈ R, p.1 ≠ k := by
    intro p hp hpk
    obtain ⟨j, hj, hji, hmem⟩ := hR3 p hp
    apply hji
    rw [hpl j hj p hmem, hpk]
  rw [Buckets.get, hIdx, Option.map_some', hbq, Option.some_bind]
  cases hMk : M k with
  | none =>
    have hbk : ∀ p ∈ bucket, ¬((fun p => decide (p.1 = k)) p = true) := by
      intro p hp hdec
      have hpk : p.1 = k := by simpa using hdec
      have hin : p ∈ s.flatten := hR1.mem_iff.2 (List.mem_append.2 (Or.inl hp))
      have hMp := (habs p).1 hin
      rw [hpk, hMk] at hMp
      cases hMp
    rw [List.find?_eq_none.2 hbk]
    rfl
  | some w =>
    have hmem : ((k, w) : K × V) ∈ s.flatten := (habs (k, w)).2 hMk
    have hmb : ((k, w) : K × V) ∈ bucket := by
      rcases List.mem_append.1 (hR1.mem_iff.1 hmem) with h | h
      · exact h
      · exact absurd rfl (hRk _ h)
    cases hf : bucket.find? (fun p => decide (p.1 = k)) with
    | none =>
      have h2 := List.find?_eq_none.1 hf (k, w) hmb
      simp at h2
    | some e =>
      have hpe := List.find?_some hf
      have hemem := List.mem_of_find?_eq_some hf
      have hek : e.1 = k := by simpa using hpe
      have hein : e ∈ s.flatten := hR1.mem_iff.2 (List.mem_append.2 (Or.inl hemem))
      have hew : e = (k, w) := hun.key_inj hein hmem (by rw [hek])
      rw [hew]
      rfl

/-! ## The simulation along public call sequences -/

theorem J_new (hash : K → Nat) :
    J hash (HashTable.new : Bkts K V) (fun _ => none) := by
  refine ⟨?_, ?_, ?_⟩
  · intro i hi
    simp [HashTable.new, Buckets.new] at hi
  · intro k
    simp [HashTable.new, Buckets.new]
  · intro p
    simp [HashTable.new, Buckets.new]

/-- The freshly allocated slot array of a resize stores the same (empty)
set of entries as the empty table. -/
theorem J_replicate {hash : K → Nat} {M : K → Option V}
    (hJ : J hash ([] : Bkts K V) M) (n : Nat) :
    J hash (List.replicate n ([] : List (K × V))) M := by
  obtain ⟨_, _, habs⟩ := hJ
  refine ⟨?_, ?_, ?_⟩
  · intro i hi p hp
    have hnil : (List.replicate n ([] : List (K × V))).get ⟨i, hi⟩ = [] := by
      simp [List.get_eq_getElem]
    rw [hnil] at hp
    cases hp
  · intro k
    rw [List.flatten_replicate_nil]
    simp
  · intro p
    rw [List.flatten_replicate_nil]
    have h0 := habs p
    simpa using h0

theorem length_eq_zero_of_len {s : Bkts K V} (h : s.length = 0) :
    Buckets.len s = 0 := by
  have h1 := len_le_cap s
  have h2 : Buckets.cap s = s.length := rfl
  omega

/-- One successful public call preserves the refinement invariant and
either keeps the capacity or installs the initial capacity 2 on the empty
table. -/
theorem step_spec {hash : K → Nat} {s s2 : Bkts K V} {M : K → Option V}
    (hJ : J hash s M) (op : Op K V) (hstep : step hash s op = some s2) :
    J hash s2 (modelStep M op) ∧
      (s2.length = s.length ∨ (s.length = 0 ∧ s2.length = 2)) := by
  cases op with
  | ins k v =>
    simp only [step] at hstep
    cases hnr : HashTable.needs_resize s with
    | false =>
      have hlen2 : Buckets.len s ≠ 0 := by
        intro h0
        rw [(needs_resize_iff_len_zero s).2 h0] at hnr
        cases hnr
      have hlen : s.length ≠ 0 := by
        intro h0
        exact hlen2 (length_eq_zero_of_len h0)
      obtain ⟨s3, hins, hJ3, hlen3⟩ := insert_spec hJ hlen k v
      rw [HashTable.insert, hnr] at hstep
      simp only [Bool.false_eq_true, if_false, hins, Option.map_some'] at hstep
      injection hstep with h2
      rw [← h2]
      exact ⟨hJ3, Or.inl hlen3⟩
    | true =>
      by_cases hcap : s.length = 0
      · have hs : s = [] := List.length_eq_zero.1 hcap
        subst hs
        rw [HashTable.insert, hnr] at hstep
        simp only [if_true, resize_nil, Option.some_bind] at hstep
        have hJr : J hash (List.replicate 2 ([] : List (K × V))) M := J_replicate hJ 2
        have hlenr : (List.replicate 2 ([] : List (K × V))).length ≠ 0 := by simp
        obtain ⟨s3, hins, hJ3, hlen3⟩ := insert_spec hJr hlenr k v
        rw [hins, Option.map_some'] at hstep
        injection hstep with h2
        rw [← h2]
        refine ⟨hJ3, Or.inr ⟨rfl, ?_⟩⟩
        rw [hlen3]
        simp
      · have hlen0 : Buckets.len s = 0 := (needs_resize_iff_len_zero s).1 hnr
        have hnone : HashTable.resize hash s = none := resize_eq_none hcap hlen0
        rw [HashTable.insert, hnr] at hstep
        simp only [if_true, hnone, Option.none_bind, Option.map_none'] at hstep
        cases hstep
  | rem k =>
    simp only [step] at hstep
    by_cases hlen : s.length = 0
    · have hnone : Buckets.remove hash s k = none := by
        unfold Buckets.remove Buckets.get_index
        rw [if_pos hlen]
        rfl
      rw [HashTable.remove, hnone] at hstep
      cases hstep
    · obtain ⟨s3, hrem, hJ3, hlen3, _⟩ := remove_spec hJ hlen k
      rw [HashTable.remove, hrem, Option.map_some'] at hstep
      injection hstep with h2
      rw [← h2]
      exact ⟨hJ3, Or.inl hlen3⟩

/-- Invariant and capacity bound along any successful suffix of calls. -/
theorem runFrom_spec {hash : K → Nat} {M : K → Option V} :
    ∀ (ops : List (Op K V)) {s s2 : Bkts K V}, J hash s M →
      runFrom hash s ops = some s2 →
      J hash s2 (modelRun M ops) ∧ (s2.length = s.length ∨ s2.length = 2)
  | [], s, s2, hJ, hrun => by
    simp only [runFrom] at hrun
    injection hrun with h2
    rw [← h2]
    exact ⟨hJ, Or.inl rfl⟩
  | op :: rest, s, s2, hJ, hrun => by
    simp only [runFrom] at hrun
    cases hstep : step hash s op with
    | none =>
      rw [hstep] at hrun
      cases hrun
    | some s3 =>
      rw [hstep, Option.some_bind] at hrun
      obtain ⟨hJ3, hlen3⟩ := step_spec hJ op hstep
      obtain ⟨hJ2, hlen2⟩ := runFrom_spec rest hJ3 hrun
      refine ⟨hJ2, ?_⟩
      rcases hlen3 with h | ⟨h0, h2⟩
      · rcases hlen2 with h' | h'
        · exact Or.inl (by rw [h', h])
        · exact Or.inr h'
      · rcases hlen2 with h' | h'
        · exact Or.inr (by rw [h', h2])
        · exact Or.inr h'

/-- Every state reachable from `HashTable::new()` without a panic refines
the abstract map of its call sequence, and has capacity 0 or 2. -/
theorem run_spec {hash : K → Nat} {ops : List (Op K V)} {s : Bkts K V}
    (hrun : run hash ops = some s) :
    J hash s (model ops) ∧ (s.length = 0 ∨ s.length = 2) := by
  obtain ⟨hJ, hlen⟩ := runFrom_spec ops (J_new hash) hrun
  refine ⟨hJ, ?_⟩
  rcases hlen with h | h
  · exact Or.inl h
  · exact Or.inr h

/-- A non-empty insert-only sequence leaves some key bound in the model. -/
theorem modelRun_ins_ne_nil :
    ∀ (l : List (K × V)) (M : K → Option V), l ≠ [] →
      ∃ k v, modelRun M (l.map fun p => Op.ins p.1 p.2) k = some v
  | [], _, h => absurd rfl h
  | p :: rest, M, _ => by
    by_cases hr : rest = []
    · subst hr
      refine ⟨p.1, p.2, ?_⟩
      simp [modelRun, modelStep, mset]
    · have h2 := modelRun_ins_ne_nil rest (mset M p.1 p.2) hr
      simpa [modelRun, modelStep] using h2

/-! ## The claims -/

/-- Claim C1: for every sequence of inserts that triggers a resize, every
key inserted before the resize is preserved: the resize completes and
`get` after it returns the same value as before it.  (On insert-only
sequences the check fires only on the fresh empty table — once a key is
stored, a slot stays occupied and the occupancy ratio stays at most 1 —
so no earlier key exists to be moved.) -/
theorem c1_resize_preserves_inserted (hash : K → Nat) (l : List (K × V))
    (i : Nat) (s : Bkts K V)
    (hrun : run hash ((l.take i).map fun p => Op.ins p.1 p.2) = some s)
    (hneed : HashTable.needs_resize s = true) :
    ∃ s2 : Bkts K V, HashTable.resize hash s = some s2 ∧
      ∀ p ∈ l.take i, HashTable.get hash s2 p.1 = HashTable.get hash s p.1 := by
  cases htake : l.take i with
  | nil =>
    rw [htake] at hrun
    have hs : s = HashTable.new := by
      simp only [List.map_nil, run, runFrom] at hrun
      injection hrun with h2
      exact h2.symm
    subst hs
    refine ⟨List.replicate 2 [], resize_nil hash, ?_⟩
    intro p hp
    exact absurd hp (List.not_mem_nil p)
  | cons q rest =>
    exfalso
    rw [htake] at hrun
    obtain ⟨hJ, _⟩ := run_spec hrun
    obtain ⟨k, v, hkv⟩ := modelRun_ins_ne_nil (q :: rest) (fun _ => none) (by simp)
    have hmem : ((k, v) : K × V) ∈ s.flatten := (hJ.2.2 (k, v)).2 hkv
    have hlenb : Buckets.len s ≠ 0 := len_ne_zero_of_mem_flatten hmem
    rw [needs_resize_eq_false hlenb] at hneed
    cases hneed

/-- Witness for C1 at the first insert of the sequence `[(1, 10)]`: the
fresh table needs a resize, the resize yields the two-slot table, and the
empty set of previously inserted keys is preserved. -/
theorem c1_witness :
    ∃ s2 : Bkts Nat Nat,
      HashTable.resize (fun k => k) (HashTable.new : Bkts Nat Nat) = some s2 ∧
        ∀ p ∈ ([((1 : Nat), (10 : Nat))].take 0),
          HashTable.get (fun k => k) s2 p.1 =
            HashTable.get (fun k => k) (HashTable.new : Bkts Nat Nat) p.1 :=
  c1_resize_preserves_inserted (fun k => k) [(1, 10)] 0 HashTable.new rfl rfl

/-- Claim C2 fails on the code: the freshly created capacity-0 table is
reachable (empty call sequence), and on it `get`, `contains_key` and
`remove` panic — `get_index` computes `hash % 0` — instead of returning
normally; this holds for every hash function.  (`insert` also panics on a
reachable state, see the claim C10 theorem.) -/
theorem c2_zero_capacity_ops_panic (hash : Nat → Nat) :
    run hash ([] : List (Op Nat Nat)) = some HashTable.new ∧
      HashTable.get hash (HashTable.new : Bkts Nat Nat) 1 = none ∧
      HashTable.contains_key hash (HashTable.new : Bkts Nat Nat) 1 = none ∧
      HashTable.remove hash (HashTable.new : Bkts Nat Nat) 1 = none :=
  ⟨rfl, rfl, rfl, rfl⟩

/-- Claim C3 counterexample: the state after inserting key 1 and removing
it is reachable, has capacity 2 and zero occupied slots; its occupancy
ratio 0 does not exceed 7, yet the needs-resize check requires a resize
whose target capacity is 4 (and whose relocation then panics).  So a
capacity-2 table is driven towards capacity 4 although the `> 7`
threshold is never exceeded, refuting "grows to capacity 4 exactly when
the threshold is exceeded". -/
theorem c3_counterexample :
    run (fun k => k) [Op.ins (1 : Nat) (10 : Nat), Op.rem 1] =
        some ([[], []] : Bkts Nat Nat) ∧
      Buckets.cap ([[], []] : Bkts Nat Nat) = 2 ∧
      Buckets.len ([[], []] : Bkts Nat Nat) = 0 ∧
      Buckets.len ([[], []] : Bkts Nat Nat) /
          Buckets.cap ([[], []] : Bkts Nat Nat) ≤ 7 ∧
      HashTable.needs_resize ([[], []] : Bkts Nat Nat) = true ∧
      HashTable.new_cap ([[], []] : Bkts Nat Nat) = 4 ∧
      HashTable.resize (fun k => k) ([[], []] : Bkts Nat Nat) = none :=
  ⟨rfl, rfl, rfl, by decide, rfl, rfl, rfl⟩

/-- Claim C3 (amended): the needs-resize check requires a resize exactly
when the table has zero occupied slots or `occupied / capacity > 7`
(integer division).  The occupied-slot count never exceeds the capacity,
so the ratio is at most 1: on a capacity-2 table the `> 7` threshold is
unsatisfiable, and the growth step to capacity 4 is required exactly when
the table has zero occupied slots. -/
theorem c3_needs_resize_boundary (b : Bkts K V) :
    (HashTable.needs_resize b = true ↔
        (Buckets.len b = 0 ∨ 7 < Buckets.len b / Buckets.cap b)) ∧
      Buckets.len b / Buckets.cap b ≤ 1 ∧
      (Buckets.cap b = 2 →
        (HashTable.needs_resize b = true ↔ Buckets.len b = 0) ∧
          HashTable.new_cap b = 4) := by
  refine ⟨needs_resize_iff b, occupancy_le_one b,
    fun hc => ⟨needs_resize_iff_len_zero b, ?_⟩⟩
  unfold HashTable.new_cap
  rw [hc]

/-- Claim C4: a key that was inserted and since then neither removed nor
overwritten — that is, a key the abstract map of the call sequence still
binds to `v` — is returned by `get` with exactly that value; the outer
`some` records that the call does not panic. -/
theorem c4_insert_then_get (hash : K → Nat) (ops : List (Op K V))
    (s : Bkts K V) (k : K) (v : V) (hrun : run hash ops = some s)
    (hmodel : model ops k = some v) :
    HashTable.get hash s k = some (some v) := by
  obtain ⟨hJ, _⟩ := run_spec hrun
  have hmem : ((k, v) : K × V) ∈ s.flatten := (hJ.2.2 (k, v)).2 hmodel
  have hlen : s.length ≠ 0 := by
    intro h0
    exact len_ne_zero_of_mem_flatten hmem (length_eq_zero_of_len h0)
  have hgs := get_spec hJ hlen k
  rw [HashTable.get, hgs, hmodel]

/-- Witness for C4: after `insert(1, 10)` from the fresh table, `get(1)`
returns 10. -/
theorem c4_witness :
    HashTable.get (fun k => k) ([[], [(1, 10)]] : Bkts Nat Nat) 1 =
      some (some 10) :=
  c4_insert_then_get (fun k => k) [Op.ins 1 10] [[], [(1, 10)]] 1 10 rfl rfl

/-- Claim C5: inserting an already-present key returns `Some` of the
previously stored value, and a subsequent `get` returns only the newest
value. -/
theorem c5_insert_overwrites (hash : K → Nat) (ops : List (Op K V))
    (s : Bkts K V) (k : K) (v0 v1 : V) (hrun : run hash ops = some s)
    (hget : HashTable.get hash s k = some (some v0)) :
    ∃ s2 : Bkts K V, HashTable.insert hash s k v1 = some (some v0, s2) ∧
      HashTable.get hash s2 k = some (some v1) := by
  obtain ⟨hJ, _⟩ := run_spec hrun
  have hlen : s.length ≠ 0 := by
    intro h0
    have hs : s = [] := List.length_eq_zero.1 h0
    rw [hs] at hget
    simp [HashTable.get, Buckets.get, Buckets.get_index] at hget
  have hgs := get_spec hJ hlen k
  have hMk : model ops k = some v0 := by
    rw [HashTable.get, hgs] at hget
    injection hget with h2
  have hmem : ((k, v0) : K × V) ∈ s.flatten := (hJ.2.2 (k, v0)).2 hMk
  have hlenb : Buckets.len s ≠ 0 := len_ne_zero_of_mem_flatten hmem
  have hnr : HashTable.needs_resize s = false := needs_resize_eq_false hlenb
  obtain ⟨s2, hins, hJ2, hlen2⟩ := insert_spec hJ hlen k v1
  refine ⟨s2, ?_, ?_⟩
  · rw [HashTable.insert, hnr]
    simp only [Bool.false_eq_true, if_false]
    rw [hins, hMk]
  · have hlen2b : s2.length ≠ 0 := by
      rw [hlen2]
      exact hlen
    have hgs2 := get_spec hJ2 hlen2b k
    rw [HashTable.get, hgs2]
    simp [mset]

/-- Witness for C5: with key 1 bound to 10, inserting `(1, 20)` returns
`Some 10` and `get(1)` then returns 20. -/
theorem c5_witness :
    ∃ s2 : Bkts Nat Nat,
      HashTable.insert (fun k => k) ([[], [(1, 10)]] : Bkts Nat Nat) 1 20 =
          some (some 10, s2) ∧
        HashTable.get (fun k => k) s2 1 = some (some 20) :=
  c5_insert_overwrites (fun k => k) [Op.ins 1 10] [[], [(1, 10)]] 1 10 20 rfl rfl

/-- Claim C6 counterexample: the freshly created table is reachable, and
removing the absent key 1 from it panics (`hash % 0` in `get_index`)
instead of returning nothing. -/
theorem c6_counterexample :
    run (fun k => k) ([] : List (Op Nat Nat)) = some HashTable.new ∧
      HashTable.remove (fun k => k) (HashTable.new : Bkts Nat Nat) 1 = none :=
  ⟨rfl, rfl⟩

/-- Claim C6 (amended): on every reachable table state of non-zero
capacity (any state after at least one insert), removing a key that is
not present returns nothing and leaves the table — hence `len()` —
unchanged. -/
theorem c6_remove_absent (hash : K → Nat) (ops : List (Op K V))
    (s : Bkts K V) (k : K) (hrun : run hash ops = some s)
    (hcap : Buckets.cap s ≠ 0) (habs : HashTable.get hash s k = some none) :
    ∃ s2 : Bkts K V, HashTable.remove hash s k = some (none, s2) ∧
      s2 = s ∧ HashTable.len s2 = HashTable.len s := by
  obtain ⟨hJ, _⟩ := run_spec hrun
  have hlen : s.length ≠ 0 := hcap
  have hgs := get_spec hJ hlen k
  have hMk : model ops k = none := by
    rw [HashTable.get, hgs] at habs
    injection habs with h2
  obtain ⟨s2, hrem, _, _, hid⟩ := remove_spec hJ hlen k
  have hs2 : s2 = s := hid hMk
  refine ⟨s, ?_, rfl, rfl⟩
  rw [HashTable.remove, hrem, hMk, hs2]

/-- Witness for C6 (amended): removing the absent key 5 from the
reachable table holding only key 1 returns nothing and keeps `len()`. -/
theorem c6_witness :
    ∃ s2 : Bkts Nat Nat,
      HashTable.remove (fun k => k) ([[], [(1, 10)]] : Bkts Nat Nat) 5 =
          some (none, s2) ∧
        s2 = ([[], [(1, 10)]] : Bkts Nat Nat) ∧
        HashTable.len s2 = HashTable.len ([[], [(1, 10)]] : Bkts Nat Nat) :=
  c6_remove_absent (fun k => k) [Op.ins 1 10] [[], [(1, 10)]] 5 rfl
    (by decide) rfl

/-- Claim C7: in every table state reachable through the public API, each
stored entry lies in the slot selected by `hash(key) mod capacity` under
the current capacity, and no key has more than one entry in the whole
table — so each present key occupies exactly that one slot; in
particular, after any completed resize the placement is consistent with
the new capacity. -/
theorem c7_placement_invariant (hash : K → Nat) (ops : List (Op K V))
    (s : Bkts K V) (hrun : run hash ops = some s) :
    (∀ (i : Nat) (hi : i < s.length) (p : K × V),
        p ∈ s.get ⟨i, hi⟩ → i = hash p.1 % Buckets.cap s) ∧
      ∀ k : K, (s.flatten.countP fun p => decide (p.1 = k)) ≤ 1 := by
  obtain ⟨⟨hpl, hun, _⟩, _⟩ := run_spec hrun
  exact ⟨hpl, hun⟩

/-- Witness for C7 at the reachable table holding only key 1. -/
theorem c7_witness :
    (∀ (i : Nat) (hi : i < ([[], [(1, 10)]] : Bkts Nat Nat).length)
        (p : Nat × Nat),
        p ∈ ([[], [(1, 10)]] : Bkts Nat Nat).get ⟨i, hi⟩ →
          i = (fun k => k) p.1 % Buckets.cap ([[], [(1, 10)]] : Bkts Nat Nat)) ∧
      ∀ k : Nat,
        ((([[], [(1, 10)]] : Bkts Nat Nat)).flatten.countP
          fun p => decide (p.1 = k)) ≤ 1 :=
  c7_placement_invariant (fun k => k) [Op.ins 1 10] [[], [(1, 10)]] rfl

/-- Claim C8: across public call sequences the capacity never decreases,
and any single successful call changes it only by the doubling rule: from
0 it becomes `INITIAL_LEN = 2` on the first growth, from non-zero `n` it
could only become `2 * n`. -/
theorem c8_capacity_monotone (hash : K → Nat) (ops : List (Op K V))
    (s s2 : Bkts K V) (op : Op K V) (hrun : run hash ops = some s)
    (hstep : step hash s op = some s2) :
    Buckets.cap s ≤ Buckets.cap s2 ∧
      (Buckets.cap s2 = Buckets.cap s ∨
        (Buckets.cap s = 0 ∧ Buckets.cap s2 = INITIAL_LEN) ∨
        Buckets.cap s2 = 2 * Buckets.cap s) := by
  obtain ⟨hJ, _⟩ := run_spec hrun
  obtain ⟨_, hlen⟩ := step_spec hJ op hstep
  rcases hlen with h | ⟨h0, h2⟩
  · constructor
    · show s.length ≤ s2.length
      omega
    · exact Or.inl h
  · constructor
    · show s.length ≤ s2.length
      omega
    · exact Or.inr (Or.inl ⟨h0, h2⟩)

/-- Witness for C8 at the first insert: capacity grows from 0 to 2. -/
theorem c8_witness :
    Buckets.cap ([] : Bkts Nat Nat) ≤ Buckets.cap ([[], [(1, 10)]] : Bkts Nat Nat) ∧
      (Buckets.cap ([[], [(1, 10)]] : Bkts Nat Nat) = Buckets.cap ([] : Bkts Nat Nat) ∨
        (Buckets.cap ([] : Bkts Nat Nat) = 0 ∧
          Buckets.cap ([[], [(1, 10)]] : Bkts Nat Nat) = INITIAL_LEN) ∨
        Buckets.cap ([[], [(1, 10)]] : Bkts Nat Nat) =
          2 * Buckets.cap ([] : Bkts Nat Nat)) :=
  c8_capacity_monotone (fun k => k) [] [] [[], [(1, 10)]] (Op.ins 1 10) rfl rfl

/-- Claim C9: every table state reachable through the public API without a
panic has capacity 0 or 2; the occupied-slot count never exceeds the
capacity, so the occupancy ratio is at most 1 and the `> 7` growth branch
is unsatisfiable. -/
theorem c9_capacity_zero_or_two (hash : K → Nat) (ops : List (Op K V))
    (s : Bkts K V) (hrun : run hash ops = some s) :
    (Buckets.cap s = 0 ∨ Buckets.cap s = 2) ∧
      Buckets.len s ≤ Buckets.cap s ∧
      Buckets.len s / Buckets.cap s ≤ 1 := by
  obtain ⟨_, hcap⟩ := run_spec hrun
  exact ⟨hcap, len_le_cap s, occupancy_le_one s⟩

/-- Witness for C9 at the reachable table holding only key 1. -/
theorem c9_witness :
    (Buckets.cap ([[], [(1, 10)]] : Bkts Nat Nat) = 0 ∨
        Buckets.cap ([[], [(1, 10)]] : Bkts Nat Nat) = 2) ∧
      Buckets.len ([[], [(1, 10)]] : Bkts Nat Nat) ≤
          Buckets.cap ([[], [(1, 10)]] : Bkts Nat Nat) ∧
      Buckets.len ([[], [(1, 10)]] : Bkts Nat Nat) /
          Buckets.cap ([[], [(1, 10)]] : Bkts Nat Nat) ≤ 1 :=
  c9_capacity_zero_or_two (fun k => k) [Op.ins 1 10] [[], [(1, 10)]] rfl

/-- Claim C10: `insert` can panic from the public API, for every hash
function: after `insert(1, 10)` and `remove(1)` the table is `[[], []]`
(capacity 2, no slot occupied), the next insert's needs-resize check
fires, and the relocation loop of the resize hits the "existing bucket
can't be empty" `expect` on the first empty old slot, so the insert
panics. -/
theorem c10_insert_panics (hash : Nat → Nat) :
    run hash [Op.ins (1 : Nat) (10 : Nat), Op.rem 1] =
        some ([[], []] : Bkts Nat Nat) ∧
      HashTable.needs_resize ([[], []] : Bkts Nat Nat) = true ∧
      Buckets.update_old_values hash
          (List.replicate (HashTable.new_cap ([[], []] : Bkts Nat Nat)) [])
          ([[], []] : Bkts Nat Nat) = none ∧
      HashTable.insert hash ([[], []] : Bkts Nat Nat) 2 20 = none := by
  refine ⟨?_, rfl, rfl, rfl⟩
  have hm : hash 1 % 2 = 0 ∨ hash 1 % 2 = 1 := by omega
  rcases hm with hm0 | hm0 <;>
    simp [run, runFrom, step, HashTable.insert, HashTable.needs_resize, HashTable.resize,
      HashTable.new_cap, Buckets.resize, Buckets.update_old_values, Buckets.insert,
      Buckets.remove, Buckets.get_index, Buckets.get_pos_in_bucket, position,
      Buckets.len, Buckets.cap, HashTable.remove, HashTable.new, Buckets.new,
      swapRemove, INITIAL_LEN, hm0]

end HashTableRs
